import Mathlib

/-!
Verification of the TODO Lister plugin core (`src/main.ts`): the line-oriented
TODO extractor (`ToDoReader.loadFile`) and the per-file index (`ToDoReader`).

Strings are modelled as `List Char`.  A JavaScript `undefined` value that can
enter the items array (via an out-of-bounds array read) is modelled as
`none : Option (List Char)`, so the extractor returns `List (Option (List Char))`.
The external `remove-markdown` normalizer is a parameter of the extractor.
-/

namespace ToDoLister

/-- JS whitespace class: the characters matched by a backslash-s atom in a JS
regular expression and stripped by `String.prototype.trim`. -/
def isJsWs (c : Char) : Bool :=
  let n := c.toNat
  n == 32 || n == 9 || n == 10 || n == 13 || n == 11 || n == 12 ||
    n == 0xA0 || n == 0x1680 || (decide (0x2000 ≤ n) && decide (n ≤ 0x200A)) ||
    n == 0x2028 || n == 0x2029 || n == 0x202F || n == 0x205F ||
    n == 0x3000 || n == 0xFEFF

/-- Characters matched by `.` in a JS regex without the `s` flag: anything but a
line terminator. -/
def isDotChar (c : Char) : Bool :=
  !(c.toNat == 10 || c.toNat == 13 || c.toNat == 0x2028 || c.toNat == 0x2029)

/-- JS `String.prototype.trim` (strips the same class as the whitespace atom). -/
def jsTrim (l : List Char) : List Char :=
  ((l.dropWhile isJsWs).reverse.dropWhile isJsWs).reverse

/-- Attempt of the first regex `^.*TODO\s*:\s*(.+?)$` anchored at the current
position (the `.*` prefix is handled by `ruleA`): requires the literal `TODO`,
then optional whitespace, a colon, then the greedy-whitespace/lazy-capture
interplay that yields the rest of the line with leading whitespace removed, or
the final whitespace character when only whitespace follows the colon. -/
def tryA (l : List Char) : Option (List Char) :=
  if l.take 4 = "TODO".data then
    match (l.drop 4).dropWhile isJsWs with
    | ':' :: afterColon =>
      let r := afterColon.dropWhile isJsWs
      if r ≠ [] then
        if r.all isDotChar then some r else none
      else
        match afterColon.getLast? with
        | some c => if isDotChar c then some [c] else none
        | none => none
    | _ => none
  else none

/-- Rule A, the labelled rule `^.*TODO\s*:\s*(.+?)$`.  The greedy `.*` prefix
prefers the rightmost position where `tryA` succeeds; every character skipped
over by `.*` must not be a line terminator. -/
def ruleA : List Char → Option (List Char)
  | [] => none
  | c :: rest =>
    if isDotChar c then
      match ruleA rest with
      | some cap => some cap
      | none => tryA (c :: rest)
    else tryA (c :: rest)

/-- Does `l` match `\s+TODO\s*$` (the tail of rule B after the capture)? -/
def tailB (l : List Char) : Bool :=
  let w := l.takeWhile isJsWs
  let r := l.dropWhile isJsWs
  decide (w ≠ []) && decide (r.take 4 = "TODO".data) && (r.drop 4).all isJsWs

/-- Worker for rule B: the lazy capture `(.+?)` grows one character at a time
from the start of the line; each capture character must not be a line
terminator. -/
def ruleBGo (capRev : List Char) : List Char → Option (List Char)
  | [] => none
  | c :: rest =>
    if isDotChar c then
      if tailB rest then some (c :: capRev).reverse
      else ruleBGo (c :: capRev) rest
    else none

/-- Rule B, the trailing rule `^(.+?)\s+TODO\s*$`. -/
def ruleB (l : List Char) : Option (List Char) :=
  ruleBGo [] l

/-- Does `l` start with `[\s(]TODO[)\s]` followed by at least one
non-line-terminator character reaching the end of the line? -/
def headC (l : List Char) : Bool :=
  match l with
  | d1 :: rest =>
    (isJsWs d1 || d1 == '(') && decide (rest.take 4 = "TODO".data) &&
      (match rest.drop 4 with
       | d2 :: rest2 => (d2 == ')' || isJsWs d2) && decide (rest2 ≠ []) && rest2.all isDotChar
       | [] => false)
  | [] => false

/-- Existence of a match of `^(.+?[\s(]TODO[)\s].+?)$` in `l`: some position
with at least one non-line-terminator character before the delimiter. -/
def hasC : List Char → Bool
  | [] => false
  | c :: rest => isDotChar c && (headC rest || hasC rest)

/-- Rule C, the embedded rule `^(.+?[\s(]TODO[)\s].+?)$`: on success the capture
is the entire line. -/
def ruleC (l : List Char) : Option (List Char) :=
  if hasC l then some l else none

/-- The inner loop over `TODO_REGEXES` for one line: try rule A, then B, then C;
trim the capture and accept it only if the trimmed capture is non-empty. -/
def lineCapture (l : List Char) : Option (List Char) :=
  match ruleA l with
  | some cap =>
    let t := jsTrim cap
    if t ≠ [] then some t
    else
      match ruleB l with
      | some cap2 =>
        let t2 := jsTrim cap2
        if t2 ≠ [] then some t2
        else
          match ruleC l with
          | some cap3 => let t3 := jsTrim cap3; if t3 ≠ [] then some t3 else none
          | none => none
      | none =>
        match ruleC l with
        | some cap3 => let t3 := jsTrim cap3; if t3 ≠ [] then some t3 else none
        | none => none
  | none =>
    match ruleB l with
    | some cap2 =>
      let t2 := jsTrim cap2
      if t2 ≠ [] then some t2
      else
        match ruleC l with
        | some cap3 => let t3 := jsTrim cap3; if t3 ≠ [] then some t3 else none
        | none => none
    | none =>
      match ruleC l with
      | some cap3 => let t3 := jsTrim cap3; if t3 ≠ [] then some t3 else none
      | none => none

/-- The forward scan after a bare marker whose previous line is empty: append
every following non-empty line, stopping at the first empty line. -/
def readFwd : List (List Char) → List (Option (List Char))
  | [] => []
  | l :: ls => if l ≠ [] then some l :: readFwd ls else []

/-- The main loop of `ToDoReader.loadFile` over the trimmed lines.  `prev` is
the previous line of the array (`none` at the first line, where the JS code
reads `lines[-1]`, i.e. `undefined`).  Since `undefined !== ""` holds, the
first-line bare-marker case pushes `undefined` — modelled as pushing `none`. -/
def scanGo : Option (List Char) → List (List Char) → List (Option (List Char))
  | _, [] => []
  | prev, line :: rest =>
    (match lineCapture line with
     | some cap => [some cap]
     | none =>
       if line = "TODO".data then
         match prev with
         | none => [(none : Option (List Char))]
         | some p => if p ≠ [] then [some p] else readFwd rest
       else []) ++ scanGo (some line) rest

/-- Scan all trimmed lines of a document (lines 117–154 of `src/main.ts`). -/
def scanLines (lines : List (List Char)) : List (Option (List Char)) :=
  scanGo none lines

/-- Split on `\r?\n` as JS `String.prototype.split` does. -/
def splitLines : List Char → List (List Char)
  | [] => [[]]
  | '\r' :: '\n' :: rest => [] :: splitLines rest
  | '\n' :: rest => [] :: splitLines rest
  | c :: rest =>
    match splitLines rest with
    | line :: ls => (c :: line) :: ls
    | [] => [[c]]

/-- One attempted match of `\[\[([^\]]+)\]\]` at the position right after an
opening `[[`: a non-empty run of non-`]` characters followed by `]]`. -/
def tryLink (l : List Char) : Option (List Char × List Char) :=
  let inner := l.takeWhile (fun c => !(c == ']'))
  let r := l.dropWhile (fun c => !(c == ']'))
  if inner ≠ [] ∧ r.take 2 = [']', ']'] then some (inner, r.drop 2) else none

/-- Fuel-indexed worker for the global replace of `[[target]]` by `target`;
on a failed attempt the scan advances one character, as a JS global replace
does. -/
def linkGo : Nat → List Char → List Char
  | 0, l => l
  | _ + 1, [] => []
  | fuel + 1, '[' :: '[' :: rest =>
    (match tryLink rest with
     | some (inner, rest2) => inner ++ linkGo fuel rest2
     | none => '[' :: linkGo fuel ('[' :: rest))
  | fuel + 1, c :: rest => c :: linkGo fuel rest

/-- The link-stripping pre-pass `md.replace(/\[\[([^\]]+)\]\]/g, "$1")`. -/
def linkStrip (l : List Char) : List Char :=
  linkGo l.length l

/-- The pure extraction pipeline of `ToDoReader.loadFile`, parameterised by the
external `remove-markdown` normalizer: strip `[[links]]`, normalize, split into
lines, trim each line, scan. -/
def extractToDo (normalize : List Char → List Char) (md : List Char) :
    List (Option (List Char)) :=
  scanLines ((splitLines (normalize (linkStrip md))).map jsTrim)

/-- String-level wrapper of the extractor for concrete inputs. -/
def extractToDoS (normalize : String → String) (s : String) : List (Option String) :=
  (extractToDo (fun l => (normalize l.asString).data) s.data).map
    (fun o => o.map List.asString)

/-- The `path` and `name` fields of an Obsidian `TAbstractFile`. -/
structure FileRef where
  path : List Char
  name : List Char
deriving DecidableEq

/-- `IToDoGroup` of `src/main.ts`: a file together with its extracted items
(an item can be the JS `undefined` value, modelled as `none`). -/
structure IToDoGroup where
  file : FileRef
  items : List (Option (List Char))
deriving DecidableEq

/-- The `_dict` of `ToDoReader`: string keys in insertion order, each mapped to
a group or to `null` (modelled as `none`). -/
abbrev Dict := List (List Char × Option IToDoGroup)

/-- Assignment `dict[path] = v`: replace the value of an existing key in place,
or append a new key. -/
def setKey : Dict → List Char → Option IToDoGroup → Dict
  | [], p, v => [(p, v)]
  | (k, w) :: t, p, v => if k = p then (p, v) :: t else (k, w) :: setKey t p v

/-- JS `delete dict[path]`. -/
def removeKey : Dict → List Char → Dict
  | [], _ => []
  | (k, w) :: t, p => if k = p then removeKey t p else (k, w) :: removeKey t p

/-- Raw key lookup in `_dict`: `none` when the key is absent, `some none` for a
key holding `null`. -/
def lookupKey : Dict → List Char → Option (Option IToDoGroup)
  | [], _ => none
  | (k, w) :: t, p => if k = p then some w else lookupKey t p

/-- `ToDoReader.getFileFor`: `this._dict[path] || undefined`, so both a missing
key and a `null` value yield `undefined`. -/
def getFileFor (d : Dict) (p : List Char) : Option IToDoGroup :=
  match lookupKey d p with
  | some (some g) => some g
  | _ => none

/-- `Object.values(this._dict).filter((x) => x !== null)`. -/
def presentGroups (d : Dict) : List IToDoGroup :=
  d.filterMap (fun e => e.2)

/-- Lexicographic strict comparison of JS strings (code-unit order), as used by
the `>` operator inside `toDoGroupSorter`. -/
def lexLt : List Char → List Char → Bool
  | [], [] => false
  | [], _ :: _ => true
  | _ :: _, [] => false
  | a :: as, b :: bs =>
    if a.toNat < b.toNat then true
    else if b.toNat < a.toNat then false
    else lexLt as bs

/-- `toDoGroupSorter us them <= 0`: the sorter returns 1 exactly when
`us.file.name > them.file.name`, so a list is sorted for it when no later
element's name is smaller. -/
def toDoGroupLe (g1 g2 : IToDoGroup) : Bool :=
  ! lexLt g2.file.name g1.file.name

/-- Stable insertion into a list sorted by `le`. -/
def insertLe (le : IToDoGroup → IToDoGroup → Bool) (x : IToDoGroup) :
    List IToDoGroup → List IToDoGroup
  | [] => [x]
  | y :: ys => if le x y then x :: y :: ys else y :: insertLe le x ys

/-- A stable comparison sort modelling `Array.prototype.sort`. -/
def insSort (le : IToDoGroup → IToDoGroup → Bool) : List IToDoGroup → List IToDoGroup
  | [] => []
  | x :: xs => insertLe le x (insSort le xs)

/-- `ToDoReader.getFilesInOrder`: the non-null groups sorted by
`toDoGroupSorter`. -/
def getFilesInOrder (d : Dict) : List IToDoGroup :=
  insSort toDoGroupLe (presentGroups d)

/-- Node `path.extname` for a file name without directory separators: the part
from the last dot on, empty when there is no dot or the only dot starts the
name. -/
def extnameOf (l : List Char) : List Char :=
  match l.reverse.findIdx? (fun c => c == '.') with
  | none => []
  | some j =>
    let i := l.length - 1 - j
    if i = 0 then [] else l.drop i

/-- `getBaseName` of `src/main.ts`: the file name with its extension removed —
the display name shown for a group. -/
def getBaseName (l : List Char) : List Char :=
  l.take (l.length - (extnameOf l).length)

/-- The dictionary write at the end of `ToDoReader.loadFile` (lines 161–167):
store the extracted group under the file's path, or `null` when no item was
found. -/
def loadFileD (normalize : List Char → List Char) (d : Dict) (f : FileRef)
    (md : List Char) : Dict :=
  let items := extractToDo normalize md
  setKey d f.path (if items = [] then none else some ⟨f, items⟩)

/-- `ToDoReader.updateFile` / `loadFileFromWorkspace`: prefer the open editor's
content when a matching leaf exists and its content is non-empty, else fall
back to the disk read, which only proceeds for `.md` paths. -/
def updateFileD (normalize : List Char → List Char) (d : Dict) (f : FileRef)
    (leafContent : Option (List Char)) (diskContent : List Char) : Dict :=
  let fromDisk :=
    if extnameOf f.path = ".md".data then loadFileD normalize d f diskContent else d
  match leafContent with
  | some c => if c = [] then fromDisk else loadFileD normalize d f c
  | none => fromDisk

/-- The content that `updateFileD` actually extracts from when the path passes
the `.md` filter. -/
def currentContent (leafContent : Option (List Char)) (diskContent : List Char) :
    List Char :=
  match leafContent with
  | some c => if c = [] then diskContent else c
  | none => diskContent

/-- `ToDoReader.deleteFile`. -/
def deleteFileD (d : Dict) (p : List Char) : Dict :=
  removeKey d p

/-- `ToDoReader.renameFile`: delete the entry under the old path, then update
the file under its new path. -/
def renameFileD (normalize : List Char → List Char) (d : Dict) (f : FileRef)
    (oldPath : List Char) (leafContent : Option (List Char))
    (diskContent : List Char) : Dict :=
  updateFileD normalize (removeKey d oldPath) f leafContent diskContent

/-! ### Dictionary lemmas -/

theorem lookupKey_setKey_self (d : Dict) (p : List Char) (v : Option IToDoGroup) :
    lookupKey (setKey d p v) p = some v := by
  induction d with
  | nil => simp [setKey, lookupKey]
  | cons e t ih =>
    obtain ⟨k, w⟩ := e
    by_cases h : k = p
    · simp [setKey, h, lookupKey]
    · simp [setKey, h, lookupKey, ih]

theorem lookupKey_setKey_ne (d : Dict) (p q : List Char) (v : Option IToDoGroup)
    (h : q ≠ p) : lookupKey (setKey d p v) q = lookupKey d q := by
  induction d with
  | nil => simp [setKey, lookupKey, Ne.symm h]
  | cons e t ih =>
    obtain ⟨k, w⟩ := e
    by_cases hk : k = p
    · subst hk
      simp [setKey, lookupKey, Ne.symm h]
    · by_cases hq : k = q <;> simp [setKey, hk, lookupKey, hq, h, ih]

theorem lookupKey_removeKey_self (d : Dict) (p : List Char) :
    lookupKey (removeKey d p) p = none := by
  induction d with
  | nil => simp [removeKey, lookupKey]
  | cons e t ih =>
    obtain ⟨k, w⟩ := e
    by_cases h : k = p
    · simp [removeKey, h, ih]
    · simp [removeKey, h, lookupKey, ih]

theorem lookupKey_removeKey_ne (d : Dict) (p q : List Char) (h : q ≠ p) :
    lookupKey (removeKey d p) q = lookupKey d q := by
  induction d with
  | nil => simp [removeKey]
  | cons e t ih =>
    obtain ⟨k, w⟩ := e
    by_cases hk : k = p
    · subst hk
      simp [removeKey, lookupKey, Ne.symm h, ih]
    · by_cases hq : k = q <;> simp [removeKey, hk, lookupKey, hq, h, ih]

theorem removeKey_absent (d : Dict) (p : List Char) (h : lookupKey d p = none) :
    removeKey d p = d := by
  induction d with
  | nil => simp [removeKey]
  | cons e t ih =>
    obtain ⟨k, w⟩ := e
    by_cases hk : k = p
    · simp [lookupKey, hk] at h
    · simp only [lookupKey, hk, if_neg, ite_false] at h
      simp [removeKey, hk, ih h]

theorem lookupKey_eq_none_of_not_mem (d : Dict) (p : List Char)
    (h : p ∉ d.map (fun e => e.1)) : lookupKey d p = none := by
  induction d with
  | nil => simp [lookupKey]
  | cons e t ih =>
    obtain ⟨k, w⟩ := e
    simp only [List.map_cons, List.mem_cons] at h
    push_neg at h
    simp [lookupKey, Ne.symm h.1, ih h.2]

theorem presentGroups_setKey_none (d : Dict) (p : List Char)
    (h : (d.map (fun e => e.1)).Nodup) :
    presentGroups (setKey d p none) = presentGroups (removeKey d p) := by
  induction d with
  | nil => simp [setKey, removeKey, presentGroups]
  | cons e t ih =>
    obtain ⟨k, w⟩ := e
    simp only [List.map_cons, List.nodup_cons] at h
    by_cases hk : k = p
    · subst hk
      have ht : removeKey t k = t :=
        removeKey_absent t k (lookupKey_eq_none_of_not_mem t k h.1)
      simp [setKey, removeKey, ht, presentGroups, List.filterMap_cons]
    · have ihh := ih h.2
      simp only [presentGroups] at ihh
      cases w <;>
        simp [setKey, removeKey, hk, presentGroups, List.filterMap_cons, ihh]

/-! ### Sorting lemmas -/

theorem lexLt_asymm {a b : List Char} (h : lexLt a b = true) : lexLt b a = false := by
  induction a generalizing b with
  | nil =>
    cases b with
    | nil => simp [lexLt] at h
    | cons y ys => simp [lexLt]
  | cons x xs ih =>
    cases b with
    | nil => simp [lexLt] at h
    | cons y ys =>
      by_cases h1 : x.toNat < y.toNat
      · have h2 : ¬ y.toNat < x.toNat := Nat.lt_asymm h1
        simp [lexLt, h1, h2]
      · by_cases h2 : y.toNat < x.toNat
        · simp [lexLt, h1, h2] at h
        · simp only [lexLt, h1, h2, if_false, ite_false] at h ⊢
          exact ih h

theorem toDoGroupLe_total (g1 g2 : IToDoGroup) :
    toDoGroupLe g1 g2 = true ∨ toDoGroupLe g2 g1 = true := by
  unfold toDoGroupLe
  by_cases h : lexLt g2.file.name g1.file.name = true
  · right
    simp [lexLt_asymm h]
  · left
    simp only [Bool.not_eq_true] at h
    simp [h]

theorem insertLe_perm (le : IToDoGroup → IToDoGroup → Bool) (x : IToDoGroup)
    (l : List IToDoGroup) : (insertLe le x l).Perm (x :: l) := by
  induction l with
  | nil => simp [insertLe]
  | cons y ys ih =>
    by_cases h : le x y
    · simp [insertLe, h]
    · have he : insertLe le x (y :: ys) = y :: insertLe le x ys := by
        simp [insertLe, h]
      rw [he]
      exact (ih.cons y).trans (List.Perm.swap x y ys)

theorem insSort_perm (le : IToDoGroup → IToDoGroup → Bool) (l : List IToDoGroup) :
    (insSort le l).Perm l := by
  induction l with
  | nil => simp [insSort]
  | cons x xs ih =>
    exact (insertLe_perm le x (insSort le xs)).trans (ih.cons x)

theorem chain'_insertLe (le : IToDoGroup → IToDoGroup → Bool)
    (total : ∀ a b, le a b = true ∨ le b a = true) (x : IToDoGroup)
    (l : List IToDoGroup) (h : List.Chain' (fun a b => le a b = true) l) :
    List.Chain' (fun a b => le a b = true) (insertLe le x l) := by
  induction l with
  | nil => simp [insertLe]
  | cons y ys ih =>
    by_cases hxy : le x y = true
    · have he : insertLe le x (y :: ys) = x :: y :: ys := by simp [insertLe, hxy]
      rw [he]
      exact List.chain'_cons.mpr ⟨hxy, h⟩
    · have hyx : le y x = true := (total x y).resolve_left hxy
      have he : insertLe le x (y :: ys) = y :: insertLe le x ys := by
        simp [insertLe, hxy]
      rw [he]
      refine List.chain'_cons'.mpr ⟨?_, ih h.tail⟩
      intro b hb
      cases ys with
      | nil =>
        simp [insertLe] at hb
        subst hb
        exact hyx
      | cons z zs =>
        by_cases hxz : le x z = true
        · have hz : insertLe le x (z :: zs) = x :: z :: zs := by
            simp [insertLe, hxz]
          rw [hz] at hb
          simp at hb
          subst hb
          exact hyx
        · have hz : insertLe le x (z :: zs) = z :: insertLe le x zs := by
            simp [insertLe, hxz]
          rw [hz] at hb
          simp at hb
          subst hb
          exact (List.chain'_cons.mp h).1

theorem chain'_insSort (le : IToDoGroup → IToDoGroup → Bool)
    (total : ∀ a b, le a b = true ∨ le b a = true) (l : List IToDoGroup) :
    List.Chain' (fun a b => le a b = true) (insSort le l) := by
  induction l with
  | nil => simp [insSort]
  | cons x xs ih => exact chain'_insertLe le total x (insSort le xs) ih

theorem getFileFor_setKey_self (d : Dict) (p : List Char) (v : Option IToDoGroup) :
    getFileFor (setKey d p v) p = v := by
  simp only [getFileFor, lookupKey_setKey_self]
  cases v <;> rfl

theorem getFileFor_setKey_ne (d : Dict) (p q : List Char) (v : Option IToDoGroup)
    (h : q ≠ p) : getFileFor (setKey d p v) q = getFileFor d q := by
  simp [getFileFor, lookupKey_setKey_ne _ _ _ _ h]

theorem getFileFor_removeKey_self (d : Dict) (p : List Char) :
    getFileFor (removeKey d p) p = none := by
  simp [getFileFor, lookupKey_removeKey_self]

theorem getFileFor_removeKey_ne (d : Dict) (p q : List Char) (h : q ≠ p) :
    getFileFor (removeKey d p) q = getFileFor d q := by
  simp [getFileFor, lookupKey_removeKey_ne _ _ _ h]

/-! ### Regex lemmas -/

theorem ruleA_append (l1 l2 cap : List Char)
    (h : ∀ c ∈ l1, isDotChar c = true) (h2 : ruleA l2 = some cap) :
    ruleA (l1 ++ l2) = some cap := by
  induction l1 with
  | nil => simpa using h2
  | cons c t ih =>
    have hc : isDotChar c = true := h c (List.mem_cons_self c t)
    have ht : ∀ x ∈ t, isDotChar x = true := fun x hx => h x (List.mem_cons_of_mem _ hx)
    simp [ruleA, hc, ih ht]

/-! ### Concrete data used by counterexamples and witnesses -/

/-- A group for the file `a.md`. -/
def exGroupA : IToDoGroup :=
  ⟨⟨"a.md".data, "a.md".data⟩, [some "y".data]⟩

/-- A group for the file `a.b.md`. -/
def exGroupAB : IToDoGroup :=
  ⟨⟨"a.b.md".data, "a.b.md".data⟩, [some "x".data]⟩

/-- An index holding both `a.b.md` and `a.md`. -/
def exDictC3 : Dict :=
  [("a.b.md".data, some exGroupAB), ("a.md".data, some exGroupA)]

/-! ### Claims -/

/-- C1: the claim says a document whose first line is the bare marker is handled
as the previous-line-empty case, scanning forward.  The code instead reads
`lines[-1]` (`undefined`); since `undefined !== ""` holds, it takes the
previous-line branch and pushes `undefined` as the single item, never scanning
forward: on `"TODO\nalpha"` it yields `[undefined]`, not `["alpha"]`. -/
theorem c1_code_eval :
    extractToDoS (fun s => s) "TODO\nalpha" = [none] ∧
    extractToDoS (fun s => s) "TODO\nalpha" ≠ [some "alpha"] :=
  ⟨by decide, by decide⟩

/-- C2: the claim says every extracted item is a non-empty trimmed string.  On
the single-line document `"TODO"` the code pushes `lines[-1]`, i.e. the
`undefined` value, so the items array contains a value that is not a string at
all. -/
theorem c2_code_eval :
    extractToDoS (fun s => s) "TODO" = [none] :=
  by decide

/-- C3 counterexample: with the files `a.b.md` and `a.md` indexed,
`getFilesInOrder` sorts by the full file name, giving the display names
`["a.b", "a"]`, which is not ascending lexicographic order of display names. -/
theorem c3_counterexample :
    (getFilesInOrder exDictC3).map (fun g => (getBaseName g.file.name).asString) =
      ["a.b", "a"] ∧
    ¬ List.Chain'
        (fun g1 g2 => lexLt (getBaseName g2.file.name) (getBaseName g1.file.name) = false)
        (getFilesInOrder exDictC3) := by
  have hlist : getFilesInOrder exDictC3 = [exGroupAB, exGroupA] := by decide
  refine ⟨by decide, ?_⟩
  intro h
  rw [hlist] at h
  exact absurd (List.chain'_cons.mp h).1 (by decide)

/-- C3 amended: for every index state, `getFilesInOrder` returns exactly the
present (non-null) groups, arranged in ascending lexicographic order of the
full file name (base name including the extension), regardless of insertion
order. -/
theorem c3_amended (d : Dict) :
    (getFilesInOrder d).Perm (presentGroups d) ∧
    List.Chain' (fun g1 g2 => toDoGroupLe g1 g2 = true) (getFilesInOrder d) :=
  ⟨insSort_perm _ _, chain'_insSort _ toDoGroupLe_total _⟩

/-- C3 amended, instantiated at a concrete index. -/
theorem c3_amended_witness :
    (getFilesInOrder exDictC3).Perm (presentGroups exDictC3) ∧
    List.Chain' (fun g1 g2 => toDoGroupLe g1 g2 = true) (getFilesInOrder exDictC3) :=
  c3_amended exDictC3

/-- C4: rule priority.  In general, whenever the labelled rule A produces a
capture with non-empty trim, that capture is the line's result (rules B and C
are not consulted); in particular `"TODO: buy milk TODO"`, which also satisfies
the trailing rule B, yields the single item `"buy milk TODO"` via rule A. -/
theorem c4_rule_priority :
    (∀ l t, ruleA l = some t → jsTrim t ≠ [] → lineCapture l = some (jsTrim t)) ∧
    extractToDoS (fun s => s) "TODO: buy milk TODO" = [some "buy milk TODO"] := by
  constructor
  · intro l t h ht
    simp [lineCapture, h, ht]
  · decide

/-- C4 witness: the general rule-priority statement applied to the line
`"TODO: fix this TODO"`, which satisfies both rule A and rule B. -/
theorem c4_rule_priority_witness :
    lineCapture ("TODO: fix this TODO".data) = some (jsTrim ("fix this TODO".data)) :=
  c4_rule_priority.1 ("TODO: fix this TODO".data) ("fix this TODO".data)
    (by decide) (by decide)

/-- C5: bare-marker forward scan on the trimmed lines
`["", "TODO", "call mom", "call dad", ""]` yields exactly
`["call mom", "call dad"]`, both on the line scanner and through the whole
extraction pipeline. -/
theorem c5_forward_scan :
    scanLines (["", "TODO", "call mom", "call dad", ""].map String.data) =
      [some "call mom".data, some "call dad".data] ∧
    extractToDoS (fun s => s) "\nTODO\ncall mom\ncall dad\n" =
      [some "call mom", some "call dad"] :=
  ⟨by decide, by decide⟩

/-- C6: absence invariant.  Whenever extraction yields zero items, the store
(`loadFileD`, the write at the end of `loadFile`) leaves the index observably
identical to the index with that path removed: the path's lookup is absent, all
lookups coincide with the removed-key index, and the enumeration coincides with
the removed-key enumeration — so a tombstoned entry is indistinguishable from a
never-seen one. -/
theorem c6_absence (normalize : List Char → List Char) (d : Dict) (f : FileRef)
    (md : List Char) (hnd : (d.map (fun e => e.1)).Nodup)
    (h : extractToDo normalize md = []) :
    getFileFor (loadFileD normalize d f md) f.path = none ∧
    (∀ q, getFileFor (loadFileD normalize d f md) q =
        getFileFor (removeKey d f.path) q) ∧
    getFilesInOrder (loadFileD normalize d f md) =
      getFilesInOrder (removeKey d f.path) := by
  have hload : loadFileD normalize d f md = setKey d f.path none := by
    simp [loadFileD, h]
  refine ⟨?_, ?_, ?_⟩
  · rw [hload, getFileFor_setKey_self]
  · intro q
    rw [hload]
    by_cases hq : q = f.path
    · subst hq
      rw [getFileFor_setKey_self, getFileFor_removeKey_self]
    · rw [getFileFor_setKey_ne _ _ _ _ hq, getFileFor_removeKey_ne _ _ _ hq]
  · rw [hload]
    unfold getFilesInOrder
    rw [presentGroups_setKey_none d f.path hnd]

/-- C6 witness: updating the previously tracked `a.md` with content extracting
to zero items makes it observably absent. -/
theorem c6_absence_witness :
    getFileFor (loadFileD (fun l => l) [("a.md".data, some exGroupA)]
        ⟨"a.md".data, "a.md".data⟩ "hello".data) ("a.md".data) = none ∧
    getFilesInOrder (loadFileD (fun l => l) [("a.md".data, some exGroupA)]
        ⟨"a.md".data, "a.md".data⟩ "hello".data) =
      getFilesInOrder (removeKey [("a.md".data, some exGroupA)] "a.md".data) :=
  ⟨(c6_absence (fun l => l) [("a.md".data, some exGroupA)]
      ⟨"a.md".data, "a.md".data⟩ "hello".data (by decide) (by decide)).1,
   (c6_absence (fun l => l) [("a.md".data, some exGroupA)]
      ⟨"a.md".data, "a.md".data⟩ "hello".data (by decide) (by decide)).2.2⟩

/-- C7: rename.  After `renameFile` (delete the old path, then update under the
new path), the old path's lookup is absent and the new path's lookup reflects a
fresh extraction of the document's current content (present exactly when the
extraction is non-empty). -/
theorem c7_rename (normalize : List Char → List Char) (d : Dict) (f : FileRef)
    (oldPath : List Char) (leafContent : Option (List Char))
    (diskContent : List Char) (hne : oldPath ≠ f.path)
    (hmd : extnameOf f.path = ".md".data) :
    getFileFor (renameFileD normalize d f oldPath leafContent diskContent)
        oldPath = none ∧
    getFileFor (renameFileD normalize d f oldPath leafContent diskContent)
        f.path =
      (if extractToDo normalize (currentContent leafContent diskContent) = []
       then none
       else some ⟨f, extractToDo normalize (currentContent leafContent diskContent)⟩) := by
  have hre : renameFileD normalize d f oldPath leafContent diskContent =
      setKey (removeKey d oldPath) f.path
        (if extractToDo normalize (currentContent leafContent diskContent) = []
         then none
         else some ⟨f, extractToDo normalize (currentContent leafContent diskContent)⟩) := by
    unfold renameFileD updateFileD currentContent loadFileD
    cases leafContent with
    | none => simp [hmd]
    | some c => by_cases hc : c = [] <;> simp [hc, hmd]
  constructor
  · rw [hre, getFileFor_setKey_ne _ _ _ _ hne, getFileFor_removeKey_self]
  · rw [hre, getFileFor_setKey_self]

/-- C7 witness: renaming the tracked `a.md` to `b.md` whose disk content is
`"TODO: x"`. -/
theorem c7_rename_witness :
    getFileFor (renameFileD (fun l => l) [("a.md".data, some exGroupA)]
        ⟨"b.md".data, "b.md".data⟩ "a.md".data none "TODO: x".data)
        ("a.md".data) = none ∧
    getFileFor (renameFileD (fun l => l) [("a.md".data, some exGroupA)]
        ⟨"b.md".data, "b.md".data⟩ "a.md".data none "TODO: x".data)
        ("b.md".data) =
      (if extractToDo (fun l => l) (currentContent none "TODO: x".data) = []
       then none
       else some ⟨⟨"b.md".data, "b.md".data⟩,
         extractToDo (fun l => l) (currentContent none "TODO: x".data)⟩) :=
  c7_rename (fun l => l) [("a.md".data, some exGroupA)]
    ⟨"b.md".data, "b.md".data⟩ "a.md".data none "TODO: x".data
    (by decide) (by decide)

/-- C8: a line consumed by the forward scan of a bare marker is also scanned on
its own turn of the outer loop, so it can contribute twice: on trimmed lines
`["", "TODO", "fix bug TODO"]` the extractor returns
`["fix bug TODO", "fix bug"]`. -/
theorem c8_double_capture :
    scanLines (["", "TODO", "fix bug TODO"].map String.data) =
      [some "fix bug TODO".data, some "fix bug".data] ∧
    extractToDoS (fun s => s) "\nTODO\nfix bug TODO" =
      [some "fix bug TODO", some "fix bug"] :=
  ⟨by decide, by decide⟩

/-- C9: the greedy prefix of rule A selects the last labelled occurrence:
prepending any further line content (free of line terminators) to a line on
which rule A matches does not change the capture, and the single-line input
`"TODO: a TODO: b"` yields exactly `["b"]`. -/
theorem c9_last_label :
    (∀ l1 l2 cap, (∀ c ∈ l1, isDotChar c = true) → ruleA l2 = some cap →
      ruleA (l1 ++ l2) = some cap) ∧
    extractToDoS (fun s => s) "TODO: a TODO: b" = [some "b"] :=
  ⟨fun l1 l2 cap h h2 => ruleA_append l1 l2 cap h h2, by decide⟩

/-- C9 witness: the prefix-irrelevance statement applied to
`"TODO: a " ++ "TODO: b"`. -/
theorem c9_last_label_witness :
    ruleA ("TODO: a ".data ++ "TODO: b".data) = some ("b".data) :=
  c9_last_label.1 ("TODO: a ".data) ("TODO: b".data) ("b".data)
    (by decide) (by decide)

/-- C10: frame property.  The store performed by `loadFile`, the update
(including its workspace/disk branches), and the delete of a path leave every
other path's lookup unchanged, and deleting a path that is not in the
dictionary leaves the whole dictionary unchanged. -/
theorem c10_frame :
    (∀ (normalize : List Char → List Char) (d : Dict) (f : FileRef)
        (md q : List Char), q ≠ f.path →
      getFileFor (loadFileD normalize d f md) q = getFileFor d q) ∧
    (∀ (normalize : List Char → List Char) (d : Dict) (f : FileRef)
        (leafContent : Option (List Char)) (diskContent q : List Char),
        q ≠ f.path →
      getFileFor (updateFileD normalize d f leafContent diskContent) q =
        getFileFor d q) ∧
    (∀ (d : Dict) (p q : List Char), q ≠ p →
      getFileFor (deleteFileD d p) q = getFileFor d q) ∧
    (∀ (d : Dict) (p : List Char), lookupKey d p = none → deleteFileD d p = d) := by
  refine ⟨?_, ?_, ?_, ?_⟩
  · intro n d f md q hq
    unfold loadFileD
    exact getFileFor_setKey_ne _ _ _ _ hq
  · intro n d f lc dc q hq
    unfold updateFileD
    cases lc with
    | none =>
      by_cases hmd : extnameOf f.path = ".md".data <;>
        simp [hmd, loadFileD, getFileFor_setKey_ne _ _ _ _ hq]
    | some c =>
      by_cases hc : c = [] <;>
        by_cases hmd : extnameOf f.path = ".md".data <;>
          simp [hc, hmd, loadFileD, getFileFor_setKey_ne _ _ _ _ hq]
  · intro d p q hq
    unfold deleteFileD
    exact getFileFor_removeKey_ne _ _ _ hq
  · intro d p h
    unfold deleteFileD
    exact removeKey_absent d p h

/-- C10 witness: the frame statements applied to concrete updates of `b.md` and
a delete of the absent `c.md` over an index tracking `a.md`. -/
theorem c10_frame_witness :
    getFileFor (loadFileD (fun l => l) [("a.md".data, some exGroupA)]
        ⟨"b.md".data, "b.md".data⟩ "TODO: x".data) ("a.md".data) =
      getFileFor [("a.md".data, some exGroupA)] ("a.md".data) ∧
    getFileFor (updateFileD (fun l => l) [("a.md".data, some exGroupA)]
        ⟨"b.md".data, "b.md".data⟩ none "TODO: x".data) ("a.md".data) =
      getFileFor [("a.md".data, some exGroupA)] ("a.md".data) ∧
    getFileFor (deleteFileD [("a.md".data, some exGroupA)] "b.md".data)
        ("a.md".data) =
      getFileFor [("a.md".data, some exGroupA)] ("a.md".data) ∧
    deleteFileD [("a.md".data, some exGroupA)] "c.md".data =
      [("a.md".data, some exGroupA)] :=
  ⟨c10_frame.1 (fun l => l) [("a.md".data, some exGroupA)]
      ⟨"b.md".data, "b.md".data⟩ "TODO: x".data ("a.md".data) (by decide),
   c10_frame.2.1 (fun l => l) [("a.md".data, some exGroupA)]
      ⟨"b.md".data, "b.md".data⟩ none "TODO: x".data ("a.md".data) (by decide),
   c10_frame.2.2.1 [("a.md".data, some exGroupA)] ("b.md".data) ("a.md".data)
      (by decide),
   c10_frame.2.2.2 [("a.md".data, some exGroupA)] ("c.md".data) (by decide)⟩

end ToDoLister
